import Mathlib

/-!
Verification of the dependency-tracing and multi-version reorganizer module
(`trace`, `traceProjectFiles`, `processTracedFiles`, `copyPackageVersion`,
`createDependencySymlinks`, `createSymlink`, `applyProductionCondition`,
`compareVersions`).

The embedding is shallow:

* JavaScript JSON-like values (the `exports` field of a manifest) are the
  inductive type `JVal`.  JavaScript objects are ordered association lists
  (`List (String × JVal)`): property update keeps the key position, a new
  property is appended at the end, `delete` removes the entry — exactly the
  enumeration-order semantics of JS objects and of `Map`.
* In-place mutation is modelled by returning the new value.
* The filesystem is the list of paths that exist; `fs.symlink` adds the link
  target path.  `mkdir` calls and the actual byte copying are not modelled
  (no analysed claim depends on them); an individual `fs.copyFile` is
  modelled as succeeding, while the path-length guard in front of it is
  modelled faithfully.
* Rejected promises are `Except.error`; `Promise.all` over concurrently
  started operations is modelled by running every operation (all are started
  before any rejection is observed) and rejecting iff one of them rejected.
* `parseInt(n, 10) || 0` is modelled on character lists (leading whitespace
  skipped, optional sign, longest digit prefix, `NaN` and `-0` collapse
  to `0`), and `v.split(sep)` for the single-character separators `"-"` and
  `"."` is `splitOnChar`.
-/

/-! ### JS object primitives -/

/-- JSON-like JavaScript value as stored in a manifest `exports` field.
`undef` is JavaScript `undefined` (an absent `exports` field). -/
inductive JVal where
  | undef : JVal
  | null : JVal
  | str (s : String) : JVal
  | num (n : Int) : JVal
  | obj (fields : List (String × JVal)) : JVal

/-- Property read `m[k]` on a JS object / `Map.get`. -/
def lookupAssoc {α : Type} : List (String × α) → String → Option α
  | [], _ => none
  | p :: rest, k => if p.1 = k then some p.2 else lookupAssoc rest k

/-- Property write `m[k] = v` on a JS object / `Map.set`: an existing key
keeps its position and gets the new value, a fresh key is appended. -/
def insertAssoc {α : Type} (m : List (String × α)) (k : String) (v : α) :
    List (String × α) :=
  if m.any (fun p => p.1 == k) then
    m.map (fun p => if p.1 = k then (k, v) else p)
  else m ++ [(k, v)]

/-- Property removal `delete m[k]`. -/
def eraseAssoc {α : Type} (m : List (String × α)) (k : String) : List (String × α) :=
  m.filter (fun p => p.1 != k)

/-- `Object.assign(target, source)`: the properties of `source` are written
into `target` left to right. -/
def assignFields (target source : List (String × JVal)) : List (String × JVal) :=
  source.foldl (fun acc p => insertAssoc acc p.1 p.2) target

/-- `mapFields g fs` applies `g` to every property value, keeping keys. -/
def mapFields (g : JVal → JVal) : List (String × JVal) → List (String × JVal)
  | [] => []
  | p :: rest => (p.1, g p.2) :: mapFields g rest

mutual

/-- Node count of a `JVal`, used as a recursion-depth bound. -/
def sizeJ : JVal → Nat
  | .undef => 1
  | .null => 1
  | .str _ => 1
  | .num _ => 1
  | .obj fs => 1 + sizeFs fs

/-- Sum of the node counts of all property values. -/
def sizeFs : List (String × JVal) → Nat
  | [] => 0
  | p :: rest => sizeJ p.2 + sizeFs rest

end

/-! ### Manifest rewriter (`applyProductionCondition`) -/

/-- The non-recursive part of `applyProductionCondition` acting on one level
of an `exports` object: if a `"production"` key is present with a non-null
value it is deleted, then a string value replaces the whole level with
`{".": thatString}` while an object value is `Object.assign`ed into the
level; a `production` value of any other type is just deleted
(`typeof` is neither `"string"` nor `"object"`). -/
def applyProdLevel (fs : List (String × JVal)) : List (String × JVal) :=
  match lookupAssoc fs "production" with
  | none => fs
  | some .null => fs
  | some .undef => fs
  | some (.str s) => [(".", .str s)]
  | some (.obj pf) => assignFields (eraseAssoc fs "production") pf
  | some (.num _) => eraseAssoc fs "production"

/-- Fuel-indexed recursive walk of `applyProductionCondition`: rewrite the
current level, then recurse into the remaining property values (recursing
into a non-object value is the identity, matching the source which only
recurses into object values).  The fuel only bounds the recursion depth;
`applyProdFuel_sufficient` below shows any fuel of at least `sizeJ v`
gives the same result. -/
def applyProdFuel : Nat → JVal → JVal
  | 0, v => v
  | f + 1, .obj fs => .obj (mapFields (applyProdFuel f) (applyProdLevel fs))
  | _ + 1, v => v
termination_by structural fuel _ => fuel

/-- `applyProductionCondition(exports)`, modelled as returning the rewritten
value instead of mutating in place.  Any non-object argument (including
`undefined`, `null` and strings) is returned unchanged. -/
def applyProductionCondition (v : JVal) : JVal := applyProdFuel (sizeJ v) v

/-! ### Version comparison (`compareVersions`) -/

/-- JS `s.split(sep)` for a one-character separator, on character lists. -/
def splitOnChar (sep : Char) : List Char → List (List Char)
  | [] => [[]]
  | c :: rest =>
    match splitOnChar sep rest with
    | [] => [[]]
    | g :: gs => if c = sep then [] :: g :: gs else (c :: g) :: gs

/-- Numeric value of a digit string. -/
def digitsToNat (ds : List Char) : Nat :=
  ds.foldl (fun acc c => acc * 10 + (c.toNat - 48)) 0

/-- `parsePart`: the source's `(n) => parseInt(n, 10) || 0` — skip leading
whitespace, optional sign, longest digit prefix; no digits (`NaN`) gives
`0`, and `-0` collapses to `0` because the negation of zero is zero. -/
def parsePart (cs : List Char) : Int :=
  match cs.dropWhile (fun c => c.isWhitespace) with
  | '-' :: rest =>
    let ds := rest.takeWhile (fun c => c.isDigit)
    if ds.isEmpty then 0 else -((digitsToNat ds : Int))
  | '+' :: rest =>
    let ds := rest.takeWhile (fun c => c.isDigit)
    if ds.isEmpty then 0 else (digitsToNat ds : Int)
  | rest =>
    let ds := rest.takeWhile (fun c => c.isDigit)
    if ds.isEmpty then 0 else (digitsToNat ds : Int)

/-- `v.split('-')[0].split('.').map(parsePart)`: drop everything from the
first `-` on, split the numeric core on `.`, parse each component. -/
def versionParts (v : String) : List Int :=
  (splitOnChar '.' ((splitOnChar '-' v.toList).headD [])).map parsePart

/-- First non-zero entry of a component list (the comparison loop once one
side has run out of components, the missing side reading as `0`). -/
def firstNonzero : List Int → Int
  | [] => 0
  | b :: bs => if b ≠ 0 then b else firstNonzero bs

/-- The comparison loop of `compareVersions`: walk both component lists,
missing trailing components read as `0`; at the first differing pair
`(a, b)` return `b - a`, otherwise `0`. -/
def cmpParts : List Int → List Int → Int
  | [], l2 => firstNonzero l2
  | a :: as, [] => if a ≠ 0 then -a else cmpParts as []
  | a :: as, b :: bs => if a ≠ b then b - a else cmpParts as bs

/-- `compareVersions(v1, v2)` from the source. -/
def compareVersions (v1 v2 : String) : Int :=
  cmpParts (versionParts v1) (versionParts v2)

/-- Modelled from the spec (for the refinement claim about `compareVersions`):
pad both component lists with zeros to a common length, find the first
differing component pair and return second minus first, else `0`. -/
def padTo (n : Nat) (l : List Int) : List Int :=
  l ++ List.replicate (n - l.length) 0

/-- Modelled from the spec: the spec's description of `compareVersions`,
to be compared with the source-derived definition. -/
def specCompareVersions (v1 v2 : String) : Int :=
  let p1 := versionParts v1
  let p2 := versionParts v2
  let n := max p1.length p2.length
  match (List.zip (padTo n p1) (padTo n p2)).find? (fun ab => ab.1 != ab.2) with
  | some ab => ab.2 - ab.1
  | none => 0

/-! ### Traced files (`traceProjectFiles`) -/

/-- The `TracedFile` record of the source.  `packageJson` is the parsed
manifest. -/
structure TracedFile where
  path : String
  subpath : String
  parents : List String
  pkgName : String
  pkgVersion : String
  pkgPath : String
  packageJson : JVal

/-- The map-building loop of `traceProjectFiles`: successfully processed
results (batches are sliced in order, awaited in order and inserted in
order, so the insertion order is the processing order of the file list) are
written into `tracedFilesMap[result.path] = result`. -/
def buildTracedMap (results : List TracedFile) : List (String × TracedFile) :=
  results.foldl (fun m r => insertAssoc m r.path r) []

/-! ### Registry ordering and routing (`processTracedFiles`) -/

/-- `compareVersions(a, b) <= 0`: the sort comparator places `a` no later
than `b` (newest-first order). -/
def versionLE (a b : String) : Prop := compareVersions a b ≤ 0

instance : DecidableRel versionLE :=
  fun a b => inferInstanceAs (Decidable (compareVersions a b ≤ 0))

/-- Comparator lifted to `Object.entries` pairs `[version, files]`, as in
`versionEntries.sort(([v1], [v2]) => compareVersions(v1, v2))`. -/
def entryLE (p q : String × List String) : Prop := versionLE p.1 q.1

instance : DecidableRel entryLE :=
  fun p q => inferInstanceAs (Decidable (compareVersions p.1 q.1 ≤ 0))

/-- The version entries of a package sorted with `compareVersions`
(JS `Array.prototype.sort` is a stable comparison sort). -/
def sortedVersionEntries (es : List (String × List String)) :
    List (String × List String) :=
  List.insertionSort entryLE es

/-- `path.join(a, b)` for well-formed relative segments. -/
def joinPath (a b : String) : String := a ++ "/" ++ b

/-- A symlink job: `source` is the existing directory the link points at,
`target` is the path at which the link is created. -/
structure SymlinkTask where
  source : String
  target : String
deriving DecidableEq

/-- The top-level newest-version symlink prepared by `processTracedFiles`
for one package: only a package with more than one version bucket gets one,
from `node_modules/<name>` to `.versions/<name>@<newest>` where the newest
version is the first entry after sorting with `compareVersions`. -/
def topLevelSymlinkTask (nodeModulesPath versionsPath name : String)
    (versionEntries : List (String × List String)) : Option SymlinkTask :=
  if versionEntries.length = 1 then none
  else
    match sortedVersionEntries versionEntries with
    | [] => none
    | (newestVersionStr, _) :: _ =>
      some ⟨joinPath versionsPath (name ++ "@" ++ newestVersionStr),
            joinPath nodeModulesPath name⟩

/-- The copy routing of `processTracedFiles` for one package: a package
with exactly one version bucket is copied to `node_modules/<name>`; each
version of a package with several buckets is copied to
`node_modules/.versions/<name>@<version>`.  Each task is the destination
directory paired with the file list handed to `copyPackageVersion`. -/
def copyDestinations (nodeModulesPath versionsPath name : String)
    (versionEntries : List (String × List String)) :
    List (String × List String) :=
  if versionEntries.length = 1 then
    [(joinPath nodeModulesPath name, (versionEntries.headD ("", [])).2)]
  else
    (sortedVersionEntries versionEntries).map
      (fun p => (joinPath versionsPath (name ++ "@" ++ p.1), p.2))

/-! ### Symlink creation (`createSymlink` and both symlink phases) -/

/-- The Windows `MAX_PATH` ceiling used by the source. -/
def MAX_PATH_LENGTH : Nat := 260

/-- `createSymlink(source, target)` on a filesystem modelled as the list of
existing paths: a target longer than `MAX_PATH_LENGTH` throws
(`Except.error`) before anything else; an existing target is left untouched
(`Except.ok none`); otherwise the link is created, making the target path
exist.  Directory creation for the target's parent and the relative-path
computation for the link contents are not modelled. -/
def createSymlink (fsPaths : List String) (source target : String) :
    List String × Except String (Option SymlinkTask) :=
  if target.length > MAX_PATH_LENGTH then
    (fsPaths,
     .error ("Cannot create symlink, target path exceeds 260 chars: " ++ target))
  else if fsPaths.contains target then
    (fsPaths, .ok none)
  else
    (target :: fsPaths, .ok (some ⟨source, target⟩))

/-- Outcome of running a batch of symlink tasks: the filesystem afterwards,
the links actually created, and the rejection messages, each in task
order. -/
structure SymlinkRunResult where
  fsPaths : List String
  created : List SymlinkTask
  errors : List String
deriving DecidableEq

/-- Run a list of symlink tasks, recording every created link and every
rejection (`Promise.all` starts all of them; every task runs). -/
def runSymlinkTasks (fsPaths : List String) : List SymlinkTask → SymlinkRunResult
  | [] => ⟨fsPaths, [], []⟩
  | t :: rest =>
    match createSymlink fsPaths t.source t.target with
    | (fs1, .error e) =>
      let r := runSymlinkTasks fs1 rest
      ⟨r.fsPaths, r.created, e :: r.errors⟩
    | (fs1, .ok none) => runSymlinkTasks fs1 rest
    | (fs1, .ok (some l)) =>
      let r := runSymlinkTasks fs1 rest
      ⟨r.fsPaths, l :: r.created, r.errors⟩

/-- The nested dependency link required by `createDependencySymlinks` for
one traced file `f` and one of its parent paths, as a `(target, source)`
map entry, or `none` when no link is required.  Mirrors the condition
`multiVersionPackages[file.pkgName] && parentFile?.pkgName &&
parentFile.pkgName !== file.pkgName` (a JS truthiness test on
`parentFile?.pkgName`, hence the non-empty-string check). -/
def dependencySymlinkTask (tracedFiles : List (String × TracedFile))
    (multiVersion : String → Bool) (nodeModulesPath versionsPath : String)
    (f : TracedFile) (parentPath : String) : Option (String × String) :=
  match lookupAssoc tracedFiles parentPath with
  | none => none
  | some parentFile =>
    if multiVersion f.pkgName && (parentFile.pkgName != "")
        && (parentFile.pkgName != f.pkgName) then
      let parentPackageOutputDir :=
        if multiVersion parentFile.pkgName then
          joinPath versionsPath (parentFile.pkgName ++ "@" ++ parentFile.pkgVersion)
        else joinPath nodeModulesPath parentFile.pkgName
      some (joinPath (joinPath parentPackageOutputDir "node_modules") f.pkgName,
            joinPath versionsPath (f.pkgName ++ "@" ++ f.pkgVersion))
    else none

/-- The dedup `Map` of `createDependencySymlinks`, keyed by link target:
a later entry for an already seen target overwrites the source and keeps
the position. -/
def dedupSymlinkTasks (pairs : List (String × String)) : List (String × String) :=
  pairs.foldl (fun m p => insertAssoc m p.1 p.2) []

/-- Turn the `(target, source)` map entries into symlink tasks. -/
def tasksOfMap (m : List (String × String)) : List SymlinkTask :=
  m.map (fun p => ⟨p.2, p.1⟩)

/-- The dependency-symlink phase: each `createSymlink` call is wrapped in
its own `try`/`catch`, the rejection message is pushed onto an error list
and the phase always runs to completion. -/
def createDependencySymlinksRun (fsPaths : List String)
    (taskPairs : List (String × String)) : SymlinkRunResult :=
  runSymlinkTasks fsPaths (tasksOfMap (dedupSymlinkTasks taskPairs))

/-- The top-level newest-version symlink phase of `processTracedFiles`:
a bare `Promise.all(tasks.map(task => createSymlink(...)))` with no
`catch`, so the phase (and with it the whole `processTracedFiles` /
`trace` call) rejects as soon as any single link rejects. -/
def processTopLevelSymlinks (fsPaths : List String) (tasks : List SymlinkTask) :
    Except String SymlinkRunResult :=
  let r := runSymlinkTasks fsPaths tasks
  match r.errors with
  | [] => .ok r
  | e :: _ => .error e

/-! ### Package copying (`copyPackageVersion`) -/

/-- Outcome of the per-file copy loop: the `(src, dest)` pairs actually
copied and the recorded error strings, each in file order. -/
structure CopyResult where
  copied : List (String × String)
  errors : List String
deriving DecidableEq

/-- The per-file loop of `copyPackageVersion`: look up the metadata of each
source path, compute the destination `destPackageDir/<subpath>`, record an
error (and skip the file) when the metadata is missing or the destination
exceeds `MAX_PATH_LENGTH`, otherwise copy (the copying itself is modelled
as succeeding). -/
def copyFilesLoop (tracedFiles : List (String × TracedFile))
    (destPackageDir : String) : List String → CopyResult
  | [] => ⟨[], []⟩
  | srcPath :: rest =>
    let r := copyFilesLoop tracedFiles destPackageDir rest
    match lookupAssoc tracedFiles srcPath with
    | none => ⟨r.copied, ("Missing metadata for " ++ srcPath) :: r.errors⟩
    | some fileMeta =>
      let destPath := joinPath destPackageDir fileMeta.subpath
      if destPath.length > MAX_PATH_LENGTH then
        ⟨r.copied,
         ("Path too long (" ++ toString destPath.length ++ "): " ++ destPath)
           :: r.errors⟩
      else ⟨(srcPath, destPath) :: r.copied, r.errors⟩

/-- `copyPackageVersion(sourceFilePaths, destPackageDir, tracedFiles)`:
returns `none` when the metadata of the first file is missing (the
source logs a warning and returns early without copying anything),
otherwise the outcome of the per-file loop. -/
def copyPackageVersion (tracedFiles : List (String × TracedFile))
    (destPackageDir : String) (sourceFilePaths : List String) :
    Option CopyResult :=
  match sourceFilePaths with
  | [] => none
  | p :: _ =>
    match lookupAssoc tracedFiles p with
    | none => none
    | some _ => some (copyFilesLoop tracedFiles destPackageDir sourceFilePaths)

/-- The error report of `copyPackageVersion`: `copyErrors.slice(0, 5)`. -/
def reportedCopyErrors (r : CopyResult) : List String := r.errors.take 5

/-! ## Helper lemmas about `JVal` sizes and object operations -/

theorem sizeJ_pos (v : JVal) : 0 < sizeJ v := by
  cases v <;> simp [sizeJ]

theorem sizeJ_le_sizeFs_of_mem {fs : List (String × JVal)} {p : String × JVal}
    (h : p ∈ fs) : sizeJ p.2 ≤ sizeFs fs := by
  induction fs with
  | nil => cases h
  | cons q rest ih =>
    rcases List.mem_cons.mp h with h1 | h2
    · subst h1; simp [sizeFs]
    · have := ih h2
      simp [sizeFs]
      omega

theorem mem_insertAssoc {α : Type} {m : List (String × α)} {k : String} {v : α}
    {p : String × α} (h : p ∈ insertAssoc m k v) : p ∈ m ∨ p = (k, v) := by
  unfold insertAssoc at h
  by_cases hc : m.any (fun q => q.1 == k)
  · simp only [hc, if_true] at h
    rcases List.mem_map.mp h with ⟨q, hq, he⟩
    by_cases hk : q.1 = k
    · simp only [hk, if_true] at he
      exact Or.inr he.symm
    · simp only [hk, if_false] at he
      exact Or.inl (he ▸ hq)
  · simp only [hc, if_false] at h
    rcases List.mem_append.mp h with h1 | h1
    · exact Or.inl h1
    · exact Or.inr (List.mem_singleton.mp h1)

theorem mem_of_mem_eraseAssoc {α : Type} {m : List (String × α)} {k : String}
    {p : String × α} (h : p ∈ eraseAssoc m k) : p ∈ m :=
  (List.mem_filter.mp h).1

theorem lookupAssoc_mem {α : Type} {m : List (String × α)} {k : String} {v : α}
    (h : lookupAssoc m k = some v) : (k, v) ∈ m := by
  induction m with
  | nil => simp [lookupAssoc] at h
  | cons q rest ih =>
    by_cases hk : q.1 = k
    · simp only [lookupAssoc, hk, if_true, Option.some.injEq] at h
      subst h
      have : q = (k, q.2) := by
        cases q; simp_all
      exact this ▸ List.mem_cons_self q rest
    · simp only [lookupAssoc, hk, if_false] at h
      exact List.mem_cons_of_mem q (ih h)

theorem mem_assignFields {s t : List (String × JVal)} {p : String × JVal}
    (h : p ∈ assignFields t s) :
    (∃ q, q ∈ t ∧ q.2 = p.2) ∨ (∃ q, q ∈ s ∧ q.2 = p.2) := by
  induction s generalizing t with
  | nil => exact Or.inl ⟨p, h, rfl⟩
  | cons a s ih =>
    have h2 : p ∈ assignFields (insertAssoc t a.1 a.2) s := h
    rcases ih h2 with ⟨q, hq, he⟩ | ⟨q, hq, he⟩
    · rcases mem_insertAssoc hq with hq1 | hq1
      · exact Or.inl ⟨q, hq1, he⟩
      · refine Or.inr ⟨a, List.mem_cons_self a s, ?_⟩
        rw [← he, hq1]
    · exact Or.inr ⟨q, List.mem_cons_of_mem a hq, he⟩

theorem sizeJ_lt_of_mem_applyProdLevel {fs : List (String × JVal)}
    {p : String × JVal} (h : p ∈ applyProdLevel fs) : sizeJ p.2 < sizeJ (.obj fs) := by
  have hobj : sizeJ (JVal.obj fs) = 1 + sizeFs fs := by simp [sizeJ]
  cases hl : lookupAssoc fs "production" with
  | none =>
    simp only [applyProdLevel, hl] at h
    have := sizeJ_le_sizeFs_of_mem h
    omega
  | some v =>
    have hml := sizeJ_le_sizeFs_of_mem (lookupAssoc_mem hl)
    cases v with
    | undef =>
      simp only [applyProdLevel, hl] at h
      have := sizeJ_le_sizeFs_of_mem h
      omega
    | null =>
      simp only [applyProdLevel, hl] at h
      have := sizeJ_le_sizeFs_of_mem h
      omega
    | num n =>
      simp only [applyProdLevel, hl] at h
      have := sizeJ_le_sizeFs_of_mem (mem_of_mem_eraseAssoc h)
      omega
    | str s =>
      simp only [applyProdLevel, hl] at h
      have hp : p = (".", JVal.str s) := List.mem_singleton.mp h
      have h1 : sizeJ (JVal.str s) = 1 := by simp [sizeJ]
      have h2 : sizeJ p.2 = 1 := by rw [hp, h1]
      simp only [h1] at hml
      omega
    | obj pf =>
      simp only [applyProdLevel, hl] at h
      have hpf : sizeJ (JVal.obj pf) = 1 + sizeFs pf := by simp [sizeJ]
      have hml2 : sizeJ (JVal.obj pf) ≤ sizeFs fs := hml
      rw [hpf] at hml2
      rcases mem_assignFields h with ⟨q, hq, he⟩ | ⟨q, hq, he⟩
      · have h3 := sizeJ_le_sizeFs_of_mem (mem_of_mem_eraseAssoc hq)
        have hpq : sizeJ p.2 = sizeJ q.2 := by rw [he]
        omega
      · have h3 := sizeJ_le_sizeFs_of_mem hq
        have hpq : sizeJ p.2 = sizeJ q.2 := by rw [he]
        omega

theorem mapFields_congr {g1 g2 : JVal → JVal} {l : List (String × JVal)}
    (h : ∀ p ∈ l, g1 p.2 = g2 p.2) : mapFields g1 l = mapFields g2 l := by
  induction l with
  | nil => rfl
  | cons p rest ih =>
    simp only [mapFields]
    rw [h p (List.mem_cons_self p rest), ih (fun q hq => h q (List.mem_cons_of_mem p hq))]

theorem applyProdFuel_congr :
    ∀ (f1 f2 : Nat) (v : JVal), sizeJ v ≤ f1 → sizeJ v ≤ f2 →
      applyProdFuel f1 v = applyProdFuel f2 v := by
  intro f1
  induction f1 with
  | zero =>
    intro f2 v h1 _
    have := sizeJ_pos v
    omega
  | succ g ih =>
    intro f2 v h1 h2
    cases f2 with
    | zero =>
      have := sizeJ_pos v
      omega
    | succ f2g =>
      cases v with
      | obj fs =>
        simp only [applyProdFuel]
        congr 1
        apply mapFields_congr
        intro p hp
        have hlt := sizeJ_lt_of_mem_applyProdLevel hp
        have hobj : sizeJ (JVal.obj fs) = 1 + sizeFs fs := by simp [sizeJ]
        exact ih f2g p.2 (by omega) (by omega)
      | undef => rfl
      | null => rfl
      | str s => rfl
      | num n => rfl

theorem applyProdFuel_sufficient {f : Nat} {v : JVal} (h : sizeJ v ≤ f) :
    applyProdFuel f v = applyProductionCondition v :=
  applyProdFuel_congr f (sizeJ v) v h (Nat.le_refl _)

theorem applyProductionCondition_obj (fs : List (String × JVal)) :
    applyProductionCondition (.obj fs)
      = .obj (mapFields applyProductionCondition (applyProdLevel fs)) := by
  have hobj : sizeJ (JVal.obj fs) = sizeFs fs + 1 := by
    simp [sizeJ]; omega
  unfold applyProductionCondition
  rw [hobj]
  simp only [applyProdFuel]
  congr 1
  apply mapFields_congr
  intro p hp
  have hlt := sizeJ_lt_of_mem_applyProdLevel hp
  have hobj2 : sizeJ (JVal.obj fs) = 1 + sizeFs fs := by simp [sizeJ]
  exact applyProdFuel_sufficient (by omega)

/-! ## C1 / C10 — manifest rewriter claims -/

/-- C1: for every manifest exports object, `applyProductionCondition`
rewrites each level by the level rule and recurses: at a level whose
`"production"` key holds a string, the whole level becomes
`{".": thatString}` (all siblings discarded); at a level whose
`"production"` key holds an object, the key is deleted and the object's
keys are shallow-merged (`Object.assign`) into the level; a level with a
null `"production"` value is kept unchanged.  On the claim's first example
the subpath object under `"."` becomes `{".": "./prod.js"}`, and on the
second example the level becomes `{"require": "./d.cjs", "import":
"./p.mjs"}` — as a JS object exactly the claim's `{"import": "./p.mjs",
"require": "./d.cjs"}` (key order has no exports semantics). -/
theorem applyProductionCondition_production_rewrite :
    (∀ fs, applyProductionCondition (.obj fs)
        = .obj (mapFields applyProductionCondition (applyProdLevel fs))) ∧
    (∀ fs s, lookupAssoc fs "production" = some (.str s) →
        applyProdLevel fs = [(".", .str s)]) ∧
    (∀ fs pf, lookupAssoc fs "production" = some (.obj pf) →
        applyProdLevel fs = assignFields (eraseAssoc fs "production") pf) ∧
    (∀ fs, lookupAssoc fs "production" = some .null → applyProdLevel fs = fs) ∧
    applyProductionCondition
        (.obj [(".", .obj [("production", .str "./prod.js"),
                           ("default", .str "./dev.js")])])
      = .obj [(".", .obj [(".", .str "./prod.js")])] ∧
    applyProductionCondition
        (.obj [("production", .obj [("import", .str "./p.mjs")]),
               ("require", .str "./d.cjs")])
      = .obj [("require", .str "./d.cjs"), ("import", .str "./p.mjs")] := by
  refine ⟨applyProductionCondition_obj, ?_, ?_, ?_, ?_, ?_⟩
  · intro fs s h
    simp only [applyProdLevel, h]
  · intro fs pf h
    simp only [applyProdLevel, h]
  · intro fs h
    simp only [applyProdLevel, h]
  · have h : sizeJ (JVal.obj [(".", .obj [("production", .str "./prod.js"),
        ("default", .str "./dev.js")])]) = 4 := by decide
    show applyProdFuel _ _ = _
    simp only [h]
    rfl
  · have h : sizeJ (JVal.obj [("production", .obj [("import", .str "./p.mjs")]),
        ("require", .str "./d.cjs")]) = 4 := by decide
    show applyProdFuel _ _ = _
    simp only [h]
    rfl

/-- Witness for C1: the level rules applied at concrete inputs. -/
theorem applyProductionCondition_production_rewrite_witness :
    applyProdLevel [("production", JVal.str "./x"), ("default", JVal.null)]
        = [(".", JVal.str "./x")] ∧
    applyProdLevel [("production", JVal.obj [("import", JVal.str "./y")])]
        = assignFields
            (eraseAssoc [("production", JVal.obj [("import", JVal.str "./y")])]
              "production")
            [("import", JVal.str "./y")] ∧
    applyProdLevel [("production", JVal.null)] = [("production", JVal.null)] :=
  ⟨applyProductionCondition_production_rewrite.2.1 _ "./x" rfl,
   applyProductionCondition_production_rewrite.2.2.1 _ _ rfl,
   applyProductionCondition_production_rewrite.2.2.2.1 _ rfl⟩

/-- C10: `applyProductionCondition` is total and the identity on any
argument that is not a non-null object: `undefined` (absent exports
field), `null`, and string-valued exports come back unchanged, so such
manifests are serialized with their exports value intact. -/
theorem applyProductionCondition_nonobject_noop :
    applyProductionCondition JVal.undef = JVal.undef ∧
    applyProductionCondition JVal.null = JVal.null ∧
    ∀ s, applyProductionCondition (JVal.str s) = JVal.str s := by
  refine ⟨?_, ?_, ?_⟩
  · have h : sizeJ JVal.undef = 1 := by simp [sizeJ]
    show applyProdFuel _ _ = _
    simp only [h]
    rfl
  · have h : sizeJ JVal.null = 1 := by simp [sizeJ]
    show applyProdFuel _ _ = _
    simp only [h]
    rfl
  · intro s
    have h : sizeJ (JVal.str s) = 1 := by simp [sizeJ]
    show applyProdFuel _ _ = _
    simp only [h]
    rfl

/-! ## Comparator lemmas -/

theorem cmpParts_nil_right (l : List Int) : cmpParts l [] = -(firstNonzero l) := by
  induction l with
  | nil => simp [cmpParts, firstNonzero]
  | cons a as ih =>
    by_cases ha : a = 0
    · simp [cmpParts, firstNonzero, ha, ih]
    · simp [cmpParts, firstNonzero, ha]

theorem find_zip_replicate_left (l : List Int) :
    (match (List.zip (List.replicate l.length 0) l).find? (fun ab => ab.1 != ab.2) with
     | some ab => ab.2 - ab.1
     | none => 0) = firstNonzero l := by
  induction l with
  | nil => simp [firstNonzero]
  | cons b bs ih =>
    by_cases hb : b = 0
    · subst hb
      simpa [List.replicate_succ, firstNonzero] using ih
    · simp [List.replicate_succ, firstNonzero, hb, List.find?_cons_of_pos, bne_iff_ne,
        Ne.symm hb]

theorem find_zip_replicate_right (l : List Int) :
    (match (List.zip l (List.replicate l.length 0)).find? (fun ab => ab.1 != ab.2) with
     | some ab => ab.2 - ab.1
     | none => 0) = -(firstNonzero l) := by
  induction l with
  | nil => simp [firstNonzero]
  | cons b bs ih =>
    by_cases hb : b = 0
    · subst hb
      simpa [List.replicate_succ, firstNonzero] using ih
    · simp [List.replicate_succ, firstNonzero, hb, List.find?_cons_of_pos, bne_iff_ne]

theorem padTo_cons (m : Nat) (a : Int) (l : List Int) :
    padTo (m + 1) (a :: l) = a :: padTo m l := by
  simp [padTo, Nat.succ_sub_succ]

theorem cmpParts_eq_padded_find : ∀ l1 l2 : List Int,
    cmpParts l1 l2
      = (match (List.zip (padTo (max l1.length l2.length) l1)
                         (padTo (max l1.length l2.length) l2)).find?
            (fun ab => ab.1 != ab.2) with
         | some ab => ab.2 - ab.1
         | none => 0) := by
  intro l1
  induction l1 with
  | nil =>
    intro l2
    have h1 : max (List.length ([] : List Int)) l2.length = l2.length := by
      simp
    rw [h1]
    have h2 : padTo l2.length ([] : List Int) = List.replicate l2.length 0 := by
      simp [padTo]
    have h3 : padTo l2.length l2 = l2 := by
      simp [padTo]
    rw [h2, h3]
    rw [show cmpParts [] l2 = firstNonzero l2 from rfl]
    exact (find_zip_replicate_left l2).symm
  | cons a as ih =>
    intro l2
    cases l2 with
    | nil =>
      have h1 : max (a :: as).length (List.length ([] : List Int)) = (a :: as).length := by
        simp
      rw [h1]
      have h2 : padTo (a :: as).length (a :: as) = a :: as := by
        simp [padTo]
      have h3 : padTo (a :: as).length ([] : List Int)
          = List.replicate (a :: as).length 0 := by
        simp [padTo]
      rw [h2, h3, cmpParts_nil_right]
      exact (find_zip_replicate_right (a :: as)).symm
    | cons b bs =>
      have hmax : max (a :: as).length (b :: bs).length = max as.length bs.length + 1 := by
        simp only [List.length_cons]
        omega
      rw [hmax, padTo_cons, padTo_cons, List.zip_cons_cons]
      by_cases hab : a = b
      · subst hab
        have hstep : cmpParts (a :: as) (a :: bs) = cmpParts as bs := by
          simp [cmpParts]
        rw [hstep, ih bs]
        simp [List.find?]
      · have hstep : cmpParts (a :: as) (b :: bs) = b - a := by
          simp [cmpParts, hab]
        have hne : (a != b) = true := by
          simp [bne_iff_ne, hab]
        rw [hstep]
        simp [List.find?, hne]

theorem compareVersions_eq_spec (v1 v2 : String) :
    compareVersions v1 v2 = specCompareVersions v1 v2 := by
  simp only [compareVersions, specCompareVersions]
  exact cmpParts_eq_padded_find _ _

/-! ## C6 — version comparator -/

/-- C6: `compareVersions` splits off the pre-release suffix after the first
dash, splits the numeric core on dots, and compares component-wise as
integers with missing trailing components read as `0`, returning the second
argument's component minus the first's at the first difference — stated as
equality with `specCompareVersions`, the direct transcription of the spec's
description; pre-release tags are ignored entirely
(`versionParts "2.0.0-beta.1" = versionParts "2.0.0"`), and the two
boundary examples report equal ordering. -/
theorem compareVersions_componentwise_spec :
    (∀ v1 v2, compareVersions v1 v2 = specCompareVersions v1 v2) ∧
    versionParts "2.0.0-beta.1" = versionParts "2.0.0" ∧
    compareVersions "1.0" "1.0.0" = 0 ∧
    compareVersions "2.0.0-beta.1" "2.0.0" = 0 := by
  refine ⟨compareVersions_eq_spec, ?_, ?_, ?_⟩
  · decide
  · decide
  · decide

theorem cmpParts_self (l : List Int) : cmpParts l l = 0 := by
  induction l with
  | nil => simp [cmpParts, firstNonzero]
  | cons a as ih => simp [cmpParts, ih]

theorem cmpParts_antisymm : ∀ l1 l2 : List Int, cmpParts l1 l2 = -(cmpParts l2 l1) := by
  intro l1
  induction l1 with
  | nil =>
    intro l2
    rw [cmpParts_nil_right]
    simp [cmpParts]
  | cons a as ih =>
    intro l2
    cases l2 with
    | nil =>
      rw [cmpParts_nil_right]
      simp [cmpParts]
    | cons b bs =>
      by_cases hab : a = b
      · subst hab
        simp [cmpParts, ih bs]
      · simp [cmpParts, hab, Ne.symm hab]

theorem cmpParts_append_zero_right : ∀ l2 l1 : List Int,
    cmpParts l1 (l2 ++ [0]) = cmpParts l1 l2 := by
  intro l2
  induction l2 with
  | nil =>
    intro l1
    cases l1 with
    | nil => simp [cmpParts, firstNonzero]
    | cons a as => simp [cmpParts]
  | cons b bs ih =>
    intro l1
    cases l1 with
    | nil =>
      have hbs := ih []
      simp only [cmpParts] at hbs ⊢
      simp [firstNonzero, hbs]
    | cons a as =>
      by_cases hab : a = b
      · subst hab
        simp [cmpParts, ih as]
      · simp [cmpParts, hab]

theorem cmpParts_append_zero_left (l1 l2 : List Int) :
    cmpParts (l1 ++ [0]) l2 = cmpParts l1 l2 := by
  rw [cmpParts_antisymm, cmpParts_append_zero_right, ← cmpParts_antisymm]

theorem cmpParts_append_replicate_right : ∀ (k : Nat) (l1 l2 : List Int),
    cmpParts l1 (l2 ++ List.replicate k 0) = cmpParts l1 l2 := by
  intro k
  induction k with
  | zero => simp
  | succ k ih =>
    intro l1 l2
    have hsplit : l2 ++ List.replicate (k + 1) 0 = (l2 ++ [0]) ++ List.replicate k 0 := by
      simp [List.replicate_succ]
    rw [hsplit, ih, cmpParts_append_zero_right]

theorem cmpParts_append_replicate_left (k : Nat) (l1 l2 : List Int) :
    cmpParts (l1 ++ List.replicate k 0) l2 = cmpParts l1 l2 := by
  rw [cmpParts_antisymm, cmpParts_append_replicate_right, ← cmpParts_antisymm]

theorem cmpParts_padTo (n : Nat) (l1 l2 : List Int) :
    cmpParts (padTo n l1) (padTo n l2) = cmpParts l1 l2 := by
  simp only [padTo]
  rw [cmpParts_append_replicate_right, cmpParts_append_replicate_left]

theorem padTo_length {n : Nat} {l : List Int} (h : l.length ≤ n) :
    (padTo n l).length = n := by
  simp [padTo]
  omega

theorem cmpParts_trans_eqlen : ∀ l1 l2 l3 : List Int,
    l1.length = l2.length → l2.length = l3.length →
    cmpParts l1 l2 ≤ 0 → cmpParts l2 l3 ≤ 0 → cmpParts l1 l3 ≤ 0 := by
  intro l1
  induction l1 with
  | nil =>
    intro l2 l3 h12 h23 hc12 hc23
    cases l2 with
    | nil =>
      cases l3 with
      | nil => exact hc12
      | cons c cs => simp at h23
    | cons b bs => simp at h12
  | cons a as ih =>
    intro l2 l3 h12 h23 hc12 hc23
    cases l2 with
    | nil => simp at h12
    | cons b bs =>
      cases l3 with
      | nil => simp at h23
      | cons c cs =>
        simp only [List.length_cons, Nat.add_right_cancel_iff] at h12 h23
        by_cases hab : a = b
        · subst hab
          by_cases hbc : a = c
          · subst hbc
            simp only [cmpParts, if_neg (by omega : ¬ (a ≠ a))] at hc12 hc23 ⊢
            exact ih bs cs h12 h23 hc12 hc23
          · simp only [cmpParts, if_neg (by omega : ¬ (a ≠ a)), if_pos hbc] at hc23 ⊢
            exact hc23
        · have hc12v : b - a ≤ 0 := by
            simpa [cmpParts, hab] using hc12
          by_cases hbc : b = c
          · subst hbc
            have hac : a ≠ b := hab
            simp only [cmpParts, if_pos hac]
            omega
          · have hc23v : c - b ≤ 0 := by
              simpa [cmpParts, hbc] using hc23
            have hac : a ≠ c := by omega
            simp only [cmpParts, if_pos hac]
            omega

theorem cmpParts_le_trans {l1 l2 l3 : List Int} (h12 : cmpParts l1 l2 ≤ 0)
    (h23 : cmpParts l2 l3 ≤ 0) : cmpParts l1 l3 ≤ 0 := by
  set n := max (max l1.length l2.length) l3.length with hn
  have hl1 : l1.length ≤ n := by omega
  have hl2 : l2.length ≤ n := by omega
  have hl3 : l3.length ≤ n := by omega
  have h12p : cmpParts (padTo n l1) (padTo n l2) ≤ 0 := by
    rw [cmpParts_padTo]; exact h12
  have h23p : cmpParts (padTo n l2) (padTo n l3) ≤ 0 := by
    rw [cmpParts_padTo]; exact h23
  have h13p := cmpParts_trans_eqlen (padTo n l1) (padTo n l2) (padTo n l3)
    (by rw [padTo_length hl1, padTo_length hl2])
    (by rw [padTo_length hl2, padTo_length hl3]) h12p h23p
  rw [cmpParts_padTo] at h13p
  exact h13p

theorem compareVersions_self_le (v : String) : compareVersions v v ≤ 0 := by
  simp [compareVersions, cmpParts_self]

theorem versionLE_total (a b : String) : versionLE a b ∨ versionLE b a := by
  simp only [versionLE, compareVersions]
  have h := cmpParts_antisymm (versionParts a) (versionParts b)
  omega

theorem versionLE_trans {a b c : String} (h1 : versionLE a b) (h2 : versionLE b c) :
    versionLE a c :=
  cmpParts_le_trans h1 h2

instance : IsTotal (String × List String) entryLE :=
  ⟨fun p q => versionLE_total p.1 q.1⟩

instance : IsTrans (String × List String) entryLE :=
  ⟨fun _ _ _ h1 h2 => versionLE_trans h1 h2⟩

/-! ## C2 / C7 — version routing and newest-version promotion -/

/-- C2: for a multi-version package (more than one version bucket), the
top-level symlink prepared by `processTracedFiles` has target
`node_modules/<name>` and source `.versions/<name>@<v>` where `v` heads the
entries sorted with `compareVersions` and is maximal under it
(`compareVersions v q ≤ 0` for every traced version `q`); on the claim's
example `{1.2.0, 1.10.0, 1.2.3}` the chosen newest version is `1.10.0`. -/
theorem topLevelSymlink_newest_version :
    (∀ nmp vp name es, 1 < es.length →
      ∃ v files rest,
        sortedVersionEntries es = (v, files) :: rest ∧
        topLevelSymlinkTask nmp vp name es
          = some ⟨joinPath vp (name ++ "@" ++ v), joinPath nmp name⟩ ∧
        (v, files) ∈ es ∧
        ∀ q ∈ es, compareVersions v q.1 ≤ 0) ∧
    topLevelSymlinkTask "node_modules" "node_modules/.versions" "pkg"
        [("1.2.0", []), ("1.10.0", []), ("1.2.3", [])]
      = some ⟨"node_modules/.versions/pkg@1.10.0", "node_modules/pkg"⟩ := by
  constructor
  · intro nmp vp name es h
    have hne1 : es.length ≠ 1 := by omega
    have hperm : List.Perm (List.insertionSort entryLE es) es :=
      List.perm_insertionSort entryLE es
    have hlen : (sortedVersionEntries es).length = es.length := hperm.length_eq
    cases hs : sortedVersionEntries es with
    | nil =>
      rw [hs] at hlen
      simp at hlen
      omega
    | cons hd rest =>
      obtain ⟨v, files⟩ := hd
      refine ⟨v, files, rest, rfl, ?_, ?_, ?_⟩
      · simp only [topLevelSymlinkTask, if_neg hne1, hs]
      · have hmem : (v, files) ∈ sortedVersionEntries es := by
          rw [hs]
          exact List.mem_cons_self _ _
        exact hperm.subset hmem
      · intro q hq
        have hqs : q ∈ sortedVersionEntries es := hperm.symm.subset hq
        rw [hs] at hqs
        rcases List.mem_cons.mp hqs with h1 | h1
        · rw [h1]
          exact compareVersions_self_le v
        · have hsorted := List.sorted_insertionSort entryLE es
          have hs2 : List.insertionSort entryLE es = (v, files) :: rest := hs
          rw [hs2] at hsorted
          exact List.rel_of_sorted_cons hsorted q h1
  · decide

/-- Witness for C2: the general statement applied to two concrete version
buckets. -/
theorem topLevelSymlink_newest_version_witness :
    ∃ v files rest,
      sortedVersionEntries [("1.0.0", ["a"]), ("2.0.0", ["b"])] = (v, files) :: rest ∧
      topLevelSymlinkTask "nm" "vs" "p" [("1.0.0", ["a"]), ("2.0.0", ["b"])]
        = some ⟨joinPath "vs" ("p" ++ "@" ++ v), joinPath "nm" "p"⟩ ∧
      (v, files) ∈ [("1.0.0", ["a"]), ("2.0.0", ["b"])] ∧
      ∀ q ∈ [("1.0.0", ["a"]), ("2.0.0", ["b"])], compareVersions v q.1 ≤ 0 :=
  topLevelSymlink_newest_version.1 "nm" "vs" "p"
    [("1.0.0", ["a"]), ("2.0.0", ["b"])] (by decide)

/-- C7: the copy routing of `processTracedFiles` — a single-version package
is copied once, directly to `node_modules/<name>`; for a multi-version
package every traced version (the newest included, with no special case)
gets a copy task targeting `node_modules/.versions/<name>@<version>`, and
conversely every produced copy task is of that shape. -/
theorem copyDestinations_routing :
    (∀ nmp vp name es, es.length = 1 →
        copyDestinations nmp vp name es
          = [(joinPath nmp name, (es.headD ("", [])).2)]) ∧
    (∀ nmp vp name es, 1 < es.length →
        (∀ p ∈ es, (joinPath vp (name ++ "@" ++ p.1), p.2)
            ∈ copyDestinations nmp vp name es) ∧
        (∀ d ∈ copyDestinations nmp vp name es,
            ∃ p, p ∈ es ∧ d = (joinPath vp (name ++ "@" ++ p.1), p.2))) := by
  constructor
  · intro nmp vp name es h
    simp only [copyDestinations, if_pos h]
  · intro nmp vp name es h
    have hne1 : es.length ≠ 1 := by omega
    have hperm : List.Perm (List.insertionSort entryLE es) es :=
      List.perm_insertionSort entryLE es
    constructor
    · intro p hp
      simp only [copyDestinations, if_neg hne1]
      exact List.mem_map_of_mem _ (hperm.symm.subset hp)
    · intro d hd
      simp only [copyDestinations, if_neg hne1] at hd
      rcases List.mem_map.mp hd with ⟨p, hp, he⟩
      exact ⟨p, hperm.subset hp, he.symm⟩

/-- Witness for C7: both routing rules applied to concrete registries. -/
theorem copyDestinations_routing_witness :
    copyDestinations "nm" "vs" "p" [("1.0.0", ["a"])]
      = [(joinPath "nm" "p", ["a"])] ∧
    (joinPath "vs" ("p" ++ "@" ++ "2.0.0"), ["b"])
      ∈ copyDestinations "nm" "vs" "p" [("1.0.0", ["a"]), ("2.0.0", ["b"])] :=
  ⟨copyDestinations_routing.1 "nm" "vs" "p" [("1.0.0", ["a"])] (by decide),
   (copyDestinations_routing.2 "nm" "vs" "p" [("1.0.0", ["a"]), ("2.0.0", ["b"])]
      (by decide)).1 ("2.0.0", ["b"]) (by decide)⟩

/-! ## Association-map lemmas (shared by the traced-file map and the
symlink-task map) -/

theorem lookupAssoc_map_update_ne {α : Type} (m : List (String × α)) (k k' : String)
    (v : α) (h : k' ≠ k) :
    lookupAssoc (m.map (fun p => if p.1 = k then (k, v) else p)) k'
      = lookupAssoc m k' := by
  induction m with
  | nil => rfl
  | cons q rest ih =>
    by_cases hq : q.1 = k
    · have hk1 : ¬ (k = k') := fun hc => h hc.symm
      have hk2 : ¬ (q.1 = k') := by
        rw [hq]
        exact hk1
      simp only [List.map_cons, if_pos hq, lookupAssoc, if_neg hk1, if_neg hk2, ih]
    · simp only [List.map_cons, if_neg hq, lookupAssoc, ih]

theorem lookupAssoc_map_update_self {α : Type} (m : List (String × α)) (k : String)
    (v : α) (h : m.any (fun p => p.1 == k) = true) :
    lookupAssoc (m.map (fun p => if p.1 = k then (k, v) else p)) k = some v := by
  induction m with
  | nil => simp at h
  | cons q rest ih =>
    by_cases hq : q.1 = k
    · simp only [List.map_cons, if_pos hq, lookupAssoc]
      simp
    · simp only [List.any_cons, Bool.or_eq_true, beq_iff_eq] at h
      rcases h with h1 | h1
      · exact absurd h1 hq
      · simp only [List.map_cons, if_neg hq, lookupAssoc, if_neg hq]
        exact ih h1

theorem lookupAssoc_none_of_not_any {α : Type} {m : List (String × α)} {k : String}
    (h : m.any (fun p => p.1 == k) = false) : lookupAssoc m k = none := by
  induction m with
  | nil => rfl
  | cons q rest ih =>
    simp only [List.any_cons, Bool.or_eq_false_iff, beq_eq_false_iff_ne, ne_eq] at h
    simp only [lookupAssoc, if_neg h.1]
    exact ih (by simpa using h.2)

theorem lookupAssoc_append {α : Type} (m1 m2 : List (String × α)) (k : String) :
    lookupAssoc (m1 ++ m2) k
      = match lookupAssoc m1 k with
        | some v => some v
        | none => lookupAssoc m2 k := by
  induction m1 with
  | nil => rfl
  | cons q rest ih =>
    by_cases hq : q.1 = k
    · simp only [List.cons_append, lookupAssoc, if_pos hq]
    · simp only [List.cons_append, lookupAssoc, if_neg hq]
      exact ih

theorem lookupAssoc_insertAssoc {α : Type} (m : List (String × α)) (k k' : String)
    (v : α) :
    lookupAssoc (insertAssoc m k v) k'
      = if k' = k then some v else lookupAssoc m k' := by
  unfold insertAssoc
  by_cases hany : m.any (fun p => p.1 == k) = true
  · rw [if_pos hany]
    by_cases hk : k' = k
    · subst hk
      rw [if_pos rfl, lookupAssoc_map_update_self m k' v hany]
    · rw [if_neg hk, lookupAssoc_map_update_ne m k k' v hk]
  · have hany2 : m.any (fun p => p.1 == k) = false := Bool.eq_false_iff.mpr hany
    rw [if_neg hany, lookupAssoc_append]
    by_cases hk : k' = k
    · subst hk
      rw [lookupAssoc_none_of_not_any hany2, if_pos rfl]
      simp [lookupAssoc]
    · rw [if_neg hk]
      have hsingle : lookupAssoc [(k, v)] k' = none := by
        simp only [lookupAssoc, if_neg (fun hc : k = k' => hk hc.symm)]
      rw [hsingle]
      cases lookupAssoc m k' <;> rfl

theorem findq_append {α : Type} (pr : α → Bool) (l1 l2 : List α) :
    (l1 ++ l2).find? pr
      = match l1.find? pr with
        | some x => some x
        | none => l2.find? pr := by
  induction l1 with
  | nil => rfl
  | cons a rest ih =>
    by_cases ha : pr a = true
    · simp only [List.cons_append, List.find?_cons_of_pos _ ha]
    · have ha2 : ¬ pr a = true := ha
      simp only [List.cons_append, List.find?_cons_of_neg _ ha2, ih]

theorem insertAssoc_keys {α : Type} (m : List (String × α)) (k : String) (v : α) :
    (insertAssoc m k v).map Prod.fst
      = if m.any (fun p => p.1 == k) then m.map Prod.fst
        else m.map Prod.fst ++ [k] := by
  unfold insertAssoc
  by_cases hany : m.any (fun p => p.1 == k) = true
  · rw [if_pos hany, if_pos hany, List.map_map]
    apply List.map_congr_left
    intro p _
    by_cases hp : p.1 = k
    · simp [hp]
    · simp [hp]
  · rw [if_neg hany, if_neg hany, List.map_append]
    rfl

theorem insertAssoc_keys_nodup {α : Type} {m : List (String × α)}
    (hn : (m.map Prod.fst).Nodup) (k : String) (v : α) :
    ((insertAssoc m k v).map Prod.fst).Nodup := by
  rw [insertAssoc_keys]
  by_cases hany : m.any (fun p => p.1 == k) = true
  · rw [if_pos hany]
    exact hn
  · rw [if_neg hany]
    have hnotmem : k ∉ m.map Prod.fst := by
      intro hk
      rcases List.mem_map.mp hk with ⟨p, hp, he⟩
      have : m.any (fun p => p.1 == k) = true :=
        List.any_eq_true.mpr ⟨p, hp, beq_iff_eq.mpr he⟩
      exact hany this
    refine List.Nodup.append hn (List.nodup_singleton k) ?_
    intro x hx hx2
    rw [List.mem_singleton.mp hx2] at hx
    exact hnotmem hx

theorem foldl_insert_keys_nodup : ∀ (results : List TracedFile)
    (m : List (String × TracedFile)), (m.map Prod.fst).Nodup →
    (((results.foldl (fun acc r => insertAssoc acc r.path r) m)).map Prod.fst).Nodup := by
  intro results
  induction results with
  | nil => exact fun m h => h
  | cons r rs ih =>
    intro m hm
    exact ih (insertAssoc m r.path r) (insertAssoc_keys_nodup hm r.path r)

theorem lookupAssoc_foldl_insert : ∀ (results : List TracedFile)
    (m : List (String × TracedFile)) (p : String),
    lookupAssoc (results.foldl (fun acc r => insertAssoc acc r.path r) m) p
      = match results.reverse.find? (fun r => r.path == p) with
        | some r => some r
        | none => lookupAssoc m p := by
  intro results
  induction results with
  | nil => intro m p; rfl
  | cons r rs ih =>
    intro m p
    rw [List.foldl_cons, ih, List.reverse_cons, findq_append]
    cases hrs : rs.reverse.find? (fun r => r.path == p) with
    | some x => rfl
    | none =>
      rw [lookupAssoc_insertAssoc]
      simp only [List.find?]
      by_cases hp : r.path = p
      · have hpb : (r.path == p) = true := beq_iff_eq.mpr hp
        rw [hpb]
        simp [hp]
      · have hpb : (r.path == p) = false := beq_eq_false_iff_ne.mpr hp
        have hne : ¬ p = r.path := fun hc => hp hc.symm
        rw [hpb]
        simp [hne]

/-! ## C5 — per-path uniqueness, and which duplicate wins -/

/-- C5 counterexample: two processed trace entries resolving to the same
physical path `/real/dup.js`, differing only in `pkgVersion`; the map keeps
the TracedFile of the *later* entry, not the earlier one as the claim
states. -/
theorem buildTracedMap_first_wins_counterexample :
    lookupAssoc (buildTracedMap
        [⟨"/real/dup.js", "index.js", [], "pkg", "1.0.0", "node_modules/pkg", .undef⟩,
         ⟨"/real/dup.js", "index.js", [], "pkg", "2.0.0", "node_modules/pkg", .undef⟩])
        "/real/dup.js"
      = some ⟨"/real/dup.js", "index.js", [], "pkg", "2.0.0", "node_modules/pkg", .undef⟩ ∧
    lookupAssoc (buildTracedMap
        [⟨"/real/dup.js", "index.js", [], "pkg", "1.0.0", "node_modules/pkg", .undef⟩,
         ⟨"/real/dup.js", "index.js", [], "pkg", "2.0.0", "node_modules/pkg", .undef⟩])
        "/real/dup.js"
      ≠ some ⟨"/real/dup.js", "index.js", [], "pkg", "1.0.0", "node_modules/pkg", .undef⟩ := by
  constructor
  · rfl
  · intro h
    simp only [buildTracedMap, List.foldl, insertAssoc, lookupAssoc] at h
    simp at h

/-- C5 (amended): every physical path maps to exactly one TracedFile (the
key list of the built map has no duplicates), and when several processed
entries resolve to the same path the *last* successful resolution wins:
the lookup returns the last entry with that path in processing order. -/
theorem buildTracedMap_unique_last_wins :
    (∀ results : List TracedFile, ((buildTracedMap results).map Prod.fst).Nodup) ∧
    (∀ (results : List TracedFile) (p : String),
        lookupAssoc (buildTracedMap results) p
          = results.reverse.find? (fun r => r.path == p)) := by
  constructor
  · intro results
    exact foldl_insert_keys_nodup results [] (by simp)
  · intro results p
    rw [buildTracedMap, lookupAssoc_foldl_insert]
    cases results.reverse.find? (fun r => r.path == p) with
    | some x => rfl
    | none => rfl

/-! ## C3 — nested dependency symlink tasks -/

/-- C3: a nested dependency link task for traced file `f` and parent path
`parentPath` is produced exactly when the parent's TracedFile exists, its
package differs from `f`'s and `f`'s package is multi-version; the link
target is `<parentOutputDir>/node_modules/<f.pkgName>` with
`parentOutputDir` in `.versions` iff the parent is itself multi-version,
and the link source is `.versions/<f.pkgName>@<f.pkgVersion>`.  (The
hypothesis that every traced file has a non-empty package name reflects the
construction in `processSingleFile`, which never produces one without.) -/
theorem dependencySymlinkTask_characterization
    (tracedFiles : List (String × TracedFile)) (multiVersion : String → Bool)
    (nmp vp : String) (f : TracedFile) (parentPath : String)
    (hNames : ∀ q ∈ tracedFiles, q.2.pkgName ≠ "") :
    ∀ task, dependencySymlinkTask tracedFiles multiVersion nmp vp f parentPath
        = some task
      ↔ ∃ p, lookupAssoc tracedFiles parentPath = some p ∧
          p.pkgName ≠ f.pkgName ∧ multiVersion f.pkgName = true ∧
          task = (joinPath (joinPath
              (if multiVersion p.pkgName then
                 joinPath vp (p.pkgName ++ "@" ++ p.pkgVersion)
               else joinPath nmp p.pkgName) "node_modules") f.pkgName,
            joinPath vp (f.pkgName ++ "@" ++ f.pkgVersion)) := by
  intro task
  cases hl : lookupAssoc tracedFiles parentPath with
  | none =>
    simp only [dependencySymlinkTask, hl]
    constructor
    · intro h
      cases h
    · intro ⟨p, hp, _⟩
      cases hp
  | some p =>
    have hpname : p.pkgName ≠ "" := hNames (parentPath, p) (lookupAssoc_mem hl)
    constructor
    · intro h
      simp only [dependencySymlinkTask, hl] at h
      split at h
      · rename_i hc
        rw [Bool.and_eq_true, Bool.and_eq_true] at hc
        obtain ⟨⟨hmv, _⟩, hne⟩ := hc
        exact ⟨p, rfl, bne_iff_ne.mp hne, hmv, (Option.some.inj h).symm⟩
      · cases h
    · intro ⟨p2, hp2, hne, hmv, htask⟩
      have hpeq : p2 = p := Option.some.inj hp2.symm
      subst hpeq
      simp only [dependencySymlinkTask, hl]
      have hcond : (multiVersion f.pkgName && (p2.pkgName != "")
          && (p2.pkgName != f.pkgName)) = true := by
        simp [hmv, bne_iff_ne, hne, hpname]
      rw [if_pos hcond, htask]

/-- Witness for C3: a concrete cross-package edge to a multi-version
dependency produces exactly the described link, via the characterization. -/
theorem dependencySymlinkTask_characterization_witness :
    dependencySymlinkTask
        [("/src/parent.js",
          ⟨"/src/parent.js", "parent.js", [], "consumer", "1.0.0",
           "node_modules/consumer", .undef⟩)]
        (fun n => n == "dep") "nm" "vs"
        ⟨"/src/dep.js", "dep.js", ["/src/parent.js"], "dep", "2.0.0",
         "node_modules/dep", .undef⟩
        "/src/parent.js"
      = some (joinPath (joinPath
            (if (fun n : String => n == "dep") "consumer" = true then
               joinPath "vs" ("consumer" ++ "@" ++ "1.0.0")
             else joinPath "nm" "consumer") "node_modules") "dep",
          joinPath "vs" ("dep" ++ "@" ++ "2.0.0")) :=
  (dependencySymlinkTask_characterization _ _ "nm" "vs" _ "/src/parent.js"
      (by decide) _).mpr
    ⟨⟨"/src/parent.js", "parent.js", [], "consumer", "1.0.0",
      "node_modules/consumer", .undef⟩, rfl, by decide, by decide, rfl⟩

/-! ## Symlink-run lemmas -/

theorem runSymlinkTasks_long_cons (fsPaths : List String) (t : SymlinkTask)
    (rest : List SymlinkTask) (h : t.target.length > MAX_PATH_LENGTH) :
    runSymlinkTasks fsPaths (t :: rest)
      = ⟨(runSymlinkTasks fsPaths rest).fsPaths,
         (runSymlinkTasks fsPaths rest).created,
         ("Cannot create symlink, target path exceeds 260 chars: " ++ t.target)
           :: (runSymlinkTasks fsPaths rest).errors⟩ := by
  simp only [runSymlinkTasks, createSymlink, if_pos h]

theorem runSymlinkTasks_errors_nonempty :
    ∀ (tasks : List SymlinkTask) (fsPaths : List String) (t : SymlinkTask),
      t ∈ tasks → t.target.length > MAX_PATH_LENGTH →
      (runSymlinkTasks fsPaths tasks).errors ≠ [] := by
  intro tasks
  induction tasks with
  | nil =>
    intro fsPaths t ht _
    cases ht
  | cons t2 rest ih =>
    intro fsPaths t ht hlen
    rcases List.mem_cons.mp ht with h1 | h1
    · subst h1
      rw [runSymlinkTasks_long_cons fsPaths t rest hlen]
      simp
    · rcases hcs : createSymlink fsPaths t2.source t2.target with ⟨fs1, ex⟩
      cases ex with
      | error e =>
        simp only [runSymlinkTasks, hcs]
        simp
      | ok o =>
        cases o with
        | none =>
          simp only [runSymlinkTasks, hcs]
          exact ih fs1 t h1 hlen
        | some l =>
          simp only [runSymlinkTasks, hcs]
          exact ih fs1 t h1 hlen

/-! ## C4 — who catches symlink failures (corrected) -/

set_option maxRecDepth 8000 in
/-- C4 counterexample: in the top-level newest-version symlink phase a
single link whose target exceeds the 260-character ceiling makes the bare
`Promise.all` reject, so `processTracedFiles` (and with it the run)
aborts — the failure is not caught at the granularity of that link; the
dependency-symlink phase run on the same task records the error and
completes, still creating the other link. -/
theorem topLevelSymlink_abort_counterexample :
    processTopLevelSymlinks []
        [⟨"node_modules/.versions/pkg@2.0.0", String.mk (List.replicate 261 'a')⟩,
         ⟨"node_modules/.versions/dep@1.0.0", "node_modules/dep"⟩]
      = .error ("Cannot create symlink, target path exceeds 260 chars: "
          ++ String.mk (List.replicate 261 'a')) ∧
    (createDependencySymlinksRun []
        [(String.mk (List.replicate 261 'a'), "node_modules/.versions/pkg@2.0.0"),
         ("node_modules/dep", "node_modules/.versions/dep@1.0.0")]).created
      = [⟨"node_modules/.versions/dep@1.0.0", "node_modules/dep"⟩] ∧
    (createDependencySymlinksRun []
        [(String.mk (List.replicate 261 'a'), "node_modules/.versions/pkg@2.0.0"),
         ("node_modules/dep", "node_modules/.versions/dep@1.0.0")]).errors
      = ["Cannot create symlink, target path exceeds 260 chars: "
          ++ String.mk (List.replicate 261 'a')] := by
  refine ⟨rfl, rfl, rfl⟩

/-- C4 (amended): every symlink failure is caught per link only in the
dependency-symlink phase — a link exceeding the ceiling contributes one
error message and leaves the processing of all other links unchanged, and
the phase always runs to completion; in the top-level newest-version phase
nothing catches a rejected `createSymlink`, so any single failing link
rejects the whole phase. -/
theorem symlink_failure_handling_per_phase :
    (∀ fsPaths t rest, t.target.length > MAX_PATH_LENGTH →
        runSymlinkTasks fsPaths (t :: rest)
          = ⟨(runSymlinkTasks fsPaths rest).fsPaths,
             (runSymlinkTasks fsPaths rest).created,
             ("Cannot create symlink, target path exceeds 260 chars: " ++ t.target)
               :: (runSymlinkTasks fsPaths rest).errors⟩) ∧
    (∀ fsPaths tasks, (runSymlinkTasks fsPaths tasks).errors = [] →
        processTopLevelSymlinks fsPaths tasks = .ok (runSymlinkTasks fsPaths tasks)) ∧
    (∀ fsPaths tasks t, t ∈ tasks → t.target.length > MAX_PATH_LENGTH →
        ∃ e, processTopLevelSymlinks fsPaths tasks = .error e) := by
  refine ⟨runSymlinkTasks_long_cons, ?_, ?_⟩
  · intro fsPaths tasks h
    simp only [processTopLevelSymlinks, h]
  · intro fsPaths tasks t ht hlen
    have hne := runSymlinkTasks_errors_nonempty tasks fsPaths t ht hlen
    cases herr : (runSymlinkTasks fsPaths tasks).errors with
    | nil => exact absurd herr hne
    | cons e es =>
      refine ⟨e, ?_⟩
      simp only [processTopLevelSymlinks, herr]

set_option maxRecDepth 8000 in
/-- Witness for C4 (amended): the per-link catch and the top-level
rejection applied to one concrete over-long link. -/
theorem symlink_failure_handling_per_phase_witness :
    runSymlinkTasks ["x"]
        [⟨"s", String.mk (List.replicate 261 'a')⟩]
      = ⟨(runSymlinkTasks ["x"] []).fsPaths,
         (runSymlinkTasks ["x"] []).created,
         ("Cannot create symlink, target path exceeds 260 chars: "
            ++ String.mk (List.replicate 261 'a'))
           :: (runSymlinkTasks ["x"] []).errors⟩ ∧
    ∃ e, processTopLevelSymlinks ["x"]
        [⟨"s", String.mk (List.replicate 261 'a')⟩] = .error e :=
  ⟨symlink_failure_handling_per_phase.1 ["x"]
      ⟨"s", String.mk (List.replicate 261 'a')⟩ [] (by simp [String.length, MAX_PATH_LENGTH]),
   symlink_failure_handling_per_phase.2.2 ["x"]
      [⟨"s", String.mk (List.replicate 261 'a')⟩]
      ⟨"s", String.mk (List.replicate 261 'a')⟩ (by simp) (by simp [String.length, MAX_PATH_LENGTH])⟩

/-! ## Copy-loop lemmas -/

theorem copyFilesLoop_copied_iff (tracedFiles : List (String × TracedFile))
    (destPackageDir : String) :
    ∀ (srcs : List String) (s d : String),
      (s, d) ∈ (copyFilesLoop tracedFiles destPackageDir srcs).copied
        ↔ s ∈ srcs ∧ ∃ meta, lookupAssoc tracedFiles s = some meta ∧
            d = joinPath destPackageDir meta.subpath ∧
            (joinPath destPackageDir meta.subpath).length ≤ MAX_PATH_LENGTH := by
  intro srcs
  induction srcs with
  | nil =>
    intro s d
    simp [copyFilesLoop]
  | cons p rest ih =>
    intro s d
    cases hl : lookupAssoc tracedFiles p with
    | none =>
      simp only [copyFilesLoop, hl]
      rw [ih]
      constructor
      · intro ⟨hmem, hmeta⟩
        exact ⟨List.mem_cons_of_mem p hmem, hmeta⟩
      · intro ⟨hmem, meta, hlk, hrest⟩
        rcases List.mem_cons.mp hmem with h1 | h1
        · rw [h1] at hlk
          rw [hlk] at hl
          cases hl
        · exact ⟨h1, meta, hlk, hrest⟩
    | some meta0 =>
      by_cases hlen : (joinPath destPackageDir meta0.subpath).length > MAX_PATH_LENGTH
      · simp only [copyFilesLoop, hl, if_pos hlen]
        rw [ih]
        constructor
        · intro ⟨hmem, hmeta⟩
          exact ⟨List.mem_cons_of_mem p hmem, hmeta⟩
        · intro ⟨hmem, meta, hlk, _, hle⟩
          rcases List.mem_cons.mp hmem with h1 | h1
          · rw [h1] at hlk
            rw [hl] at hlk
            have hme : meta = meta0 := Option.some.inj hlk.symm
            rw [hme] at hle
            omega
          · exact ⟨h1, meta, hlk, by assumption, hle⟩
      · simp only [copyFilesLoop, hl, if_neg hlen]
        constructor
        · intro hmem2
          rcases List.mem_cons.mp hmem2 with h1 | h1
          · have hs : s = p := congrArg Prod.fst h1
            have hd : d = joinPath destPackageDir meta0.subpath := congrArg Prod.snd h1
            subst hs
            exact ⟨List.mem_cons_self s rest, meta0, hl, hd, by omega⟩
          · obtain ⟨hmem, hmeta⟩ := (ih s d).mp h1
            exact ⟨List.mem_cons_of_mem p hmem, hmeta⟩
        · intro ⟨hmem, meta, hlk, hd, hle⟩
          by_cases hs : s = p
          · subst hs
            rw [hl] at hlk
            have hme : meta = meta0 := Option.some.inj hlk.symm
            subst hme
            rw [hd]
            exact List.mem_cons_self _ _
          · rcases List.mem_cons.mp hmem with h1 | h1
            · exact absurd h1 hs
            · exact List.mem_cons_of_mem _ ((ih s d).mpr ⟨h1, meta, hlk, hd, hle⟩)

theorem copyFilesLoop_error_mem (tracedFiles : List (String × TracedFile))
    (destPackageDir : String) :
    ∀ (srcs : List String) (s : String) (meta : TracedFile), s ∈ srcs →
      lookupAssoc tracedFiles s = some meta →
      (joinPath destPackageDir meta.subpath).length > MAX_PATH_LENGTH →
      ("Path too long (" ++ toString (joinPath destPackageDir meta.subpath).length
          ++ "): " ++ joinPath destPackageDir meta.subpath)
        ∈ (copyFilesLoop tracedFiles destPackageDir srcs).errors := by
  intro srcs
  induction srcs with
  | nil =>
    intro s meta hmem
    cases hmem
  | cons p rest ih =>
    intro s meta hmem hlk hlen
    rcases List.mem_cons.mp hmem with h1 | h1
    · subst h1
      simp only [copyFilesLoop, hlk, if_pos hlen]
      exact List.mem_cons_self _ _
    · have htail := ih s meta h1 hlk hlen
      cases hl : lookupAssoc tracedFiles p with
      | none =>
        simp only [copyFilesLoop, hl]
        exact List.mem_cons_of_mem _ htail
      | some meta0 =>
        by_cases hlen0 : (joinPath destPackageDir meta0.subpath).length > MAX_PATH_LENGTH
        · simp only [copyFilesLoop, hl, if_pos hlen0]
          exact List.mem_cons_of_mem _ htail
        · simp only [copyFilesLoop, hl, if_neg hlen0]
          exact htail

theorem reportedCopyErrors_length_le (r : CopyResult) :
    (reportedCopyErrors r).length ≤ 5 := by
  rw [reportedCopyErrors, List.length_take]
  omega

/-! ## C8 — per-file path-length guard in `copyPackageVersion` -/

/-- C8: in `copyPackageVersion`, every file whose destination path exceeds
the 260-character ceiling is skipped (never appears among the copied pairs)
with a recorded `Path too long` error; this does not prevent any other file
of the same package version from being copied (every file with a
within-ceiling destination is copied); the batch completes with a result
and the report shows at most the first five recorded errors. -/
theorem copyPackageVersion_path_length_guard :
    ∀ (tracedFiles : List (String × TracedFile)) (destPackageDir : String)
      (sourceFilePaths : List String) (r : CopyResult),
      copyPackageVersion tracedFiles destPackageDir sourceFilePaths = some r →
      (∀ src meta, src ∈ sourceFilePaths →
          lookupAssoc tracedFiles src = some meta →
          (joinPath destPackageDir meta.subpath).length > MAX_PATH_LENGTH →
          (∀ d, (src, d) ∉ r.copied) ∧
          ("Path too long (" ++ toString (joinPath destPackageDir meta.subpath).length
              ++ "): " ++ joinPath destPackageDir meta.subpath) ∈ r.errors) ∧
      (∀ src meta, src ∈ sourceFilePaths →
          lookupAssoc tracedFiles src = some meta →
          (joinPath destPackageDir meta.subpath).length ≤ MAX_PATH_LENGTH →
          (src, joinPath destPackageDir meta.subpath) ∈ r.copied) ∧
      (reportedCopyErrors r).length ≤ 5 := by
  intro tracedFiles destPackageDir sourceFilePaths r hsome
  have hr : r = copyFilesLoop tracedFiles destPackageDir sourceFilePaths := by
    cases sourceFilePaths with
    | nil => cases hsome
    | cons p rest =>
      cases hl0 : lookupAssoc tracedFiles p with
      | none =>
        simp only [copyPackageVersion, hl0] at hsome
        cases hsome
      | some m0 =>
        simp only [copyPackageVersion, hl0] at hsome
        exact (Option.some.inj hsome).symm
  subst hr
  refine ⟨?_, ?_, reportedCopyErrors_length_le _⟩
  · intro src meta hmem hlk hlen
    constructor
    · intro d hd
      rw [copyFilesLoop_copied_iff] at hd
      obtain ⟨_, meta2, hlk2, _, hle⟩ := hd
      rw [hlk] at hlk2
      have hme : meta2 = meta := Option.some.inj hlk2.symm
      rw [hme] at hle
      omega
    · exact copyFilesLoop_error_mem _ _ _ src meta hmem hlk hlen
  · intro src meta hmem hlk hle
    rw [copyFilesLoop_copied_iff]
    exact ⟨hmem, meta, hlk, rfl, hle⟩

set_option maxRecDepth 8000 in
/-- Witness for C8: one file with a 261-character subpath is skipped with a
recorded error while a sibling file still gets copied. -/
theorem copyPackageVersion_path_length_guard_witness :
    (∀ d, ("/b", d) ∉ (copyFilesLoop
        [("/a", ⟨"/a", "a.js", [], "pkg", "1.0.0", "node_modules/pkg", .undef⟩),
         ("/b", ⟨"/b", String.mk (List.replicate 261 'b'), [], "pkg", "1.0.0",
                 "node_modules/pkg", .undef⟩)]
        "/out" ["/a", "/b"]).copied) ∧
    ("/a", joinPath "/out" "a.js")
      ∈ (copyFilesLoop
        [("/a", ⟨"/a", "a.js", [], "pkg", "1.0.0", "node_modules/pkg", .undef⟩),
         ("/b", ⟨"/b", String.mk (List.replicate 261 'b'), [], "pkg", "1.0.0",
                 "node_modules/pkg", .undef⟩)]
        "/out" ["/a", "/b"]).copied :=
  ⟨(copyPackageVersion_path_length_guard
      [("/a", ⟨"/a", "a.js", [], "pkg", "1.0.0", "node_modules/pkg", .undef⟩),
       ("/b", ⟨"/b", String.mk (List.replicate 261 'b'), [], "pkg", "1.0.0",
               "node_modules/pkg", .undef⟩)]
      "/out" ["/a", "/b"]
      (copyFilesLoop
        [("/a", ⟨"/a", "a.js", [], "pkg", "1.0.0", "node_modules/pkg", .undef⟩),
         ("/b", ⟨"/b", String.mk (List.replicate 261 'b'), [], "pkg", "1.0.0",
                 "node_modules/pkg", .undef⟩)]
        "/out" ["/a", "/b"]) rfl).1 "/b"
      ⟨"/b", String.mk (List.replicate 261 'b'), [], "pkg", "1.0.0",
       "node_modules/pkg", .undef⟩
      (by simp) rfl (by decide) |>.1,
   (copyPackageVersion_path_length_guard
      [("/a", ⟨"/a", "a.js", [], "pkg", "1.0.0", "node_modules/pkg", .undef⟩),
       ("/b", ⟨"/b", String.mk (List.replicate 261 'b'), [], "pkg", "1.0.0",
               "node_modules/pkg", .undef⟩)]
      "/out" ["/a", "/b"]
      (copyFilesLoop
        [("/a", ⟨"/a", "a.js", [], "pkg", "1.0.0", "node_modules/pkg", .undef⟩),
         ("/b", ⟨"/b", String.mk (List.replicate 261 'b'), [], "pkg", "1.0.0",
                 "node_modules/pkg", .undef⟩)]
        "/out" ["/a", "/b"]) rfl).2.1 "/a"
      ⟨"/a", "a.js", [], "pkg", "1.0.0", "node_modules/pkg", .undef⟩
      (by simp) rfl (by decide)⟩

/-! ## Idempotence lemmas for symlink runs -/

theorem containsStr_iff {l : List String} {a : String} :
    l.contains a = true ↔ a ∈ l := by
  simp [List.contains, List.elem_iff]

theorem dedup_foldl_keys_nodup : ∀ (pairs : List (String × String))
    (m : List (String × String)), (m.map Prod.fst).Nodup →
    (((pairs.foldl (fun acc p => insertAssoc acc p.1 p.2) m)).map Prod.fst).Nodup := by
  intro pairs
  induction pairs with
  | nil => exact fun m h => h
  | cons p rest ih =>
    intro m hm
    exact ih (insertAssoc m p.1 p.2) (insertAssoc_keys_nodup hm p.1 p.2)

theorem tasksOfMap_targets (m : List (String × String)) :
    (tasksOfMap m).map (fun t => t.target) = m.map Prod.fst := by
  induction m with
  | nil => rfl
  | cons p rest ih =>
    simp only [tasksOfMap, List.map_cons] at ih ⊢
    rw [ih]

theorem runSymlinkTasks_contains_mono : ∀ (tasks : List SymlinkTask)
    (fsPaths : List String) (p : String), fsPaths.contains p = true →
    (runSymlinkTasks fsPaths tasks).fsPaths.contains p = true := by
  intro tasks
  induction tasks with
  | nil => exact fun fsPaths p h => h
  | cons t rest ih =>
    intro fsPaths p h
    by_cases hlen : t.target.length > MAX_PATH_LENGTH
    · simp only [runSymlinkTasks, createSymlink, if_pos hlen]
      exact ih fsPaths p h
    · by_cases hex : fsPaths.contains t.target = true
      · simp only [runSymlinkTasks, createSymlink, if_neg hlen, if_pos hex]
        exact ih fsPaths p h
      · simp only [runSymlinkTasks, createSymlink, if_neg hlen, if_neg hex]
        refine ih (t.target :: fsPaths) p ?_
        rw [containsStr_iff] at h ⊢
        exact List.mem_cons_of_mem _ h

theorem runSymlinkTasks_target_exists : ∀ (tasks : List SymlinkTask)
    (fsPaths : List String) (t : SymlinkTask), t ∈ tasks →
    t.target.length ≤ MAX_PATH_LENGTH →
    (runSymlinkTasks fsPaths tasks).fsPaths.contains t.target = true := by
  intro tasks
  induction tasks with
  | nil =>
    intro fsPaths t ht
    cases ht
  | cons t2 rest ih =>
    intro fsPaths t ht hle
    rcases List.mem_cons.mp ht with h1 | h1
    · subst h1
      have hlen : ¬ t.target.length > MAX_PATH_LENGTH := by omega
      by_cases hex : fsPaths.contains t.target = true
      · simp only [runSymlinkTasks, createSymlink, if_neg hlen, if_pos hex]
        exact runSymlinkTasks_contains_mono rest fsPaths t.target hex
      · simp only [runSymlinkTasks, createSymlink, if_neg hlen, if_neg hex]
        refine runSymlinkTasks_contains_mono rest (t.target :: fsPaths) t.target ?_
        rw [containsStr_iff]
        exact List.mem_cons_self _ _
    · by_cases hlen : t2.target.length > MAX_PATH_LENGTH
      · simp only [runSymlinkTasks, createSymlink, if_pos hlen]
        exact ih fsPaths t h1 hle
      · by_cases hex : fsPaths.contains t2.target = true
        · simp only [runSymlinkTasks, createSymlink, if_neg hlen, if_pos hex]
          exact ih fsPaths t h1 hle
        · simp only [runSymlinkTasks, createSymlink, if_neg hlen, if_neg hex]
          exact ih (t2.target :: fsPaths) t h1 hle

theorem runSymlinkTasks_noop : ∀ (tasks : List SymlinkTask) (fsPaths : List String),
    (∀ t ∈ tasks, t.target.length ≤ MAX_PATH_LENGTH →
        fsPaths.contains t.target = true) →
    (runSymlinkTasks fsPaths tasks).fsPaths = fsPaths ∧
    (runSymlinkTasks fsPaths tasks).created = [] := by
  intro tasks
  induction tasks with
  | nil => exact fun fsPaths _ => ⟨rfl, rfl⟩
  | cons t rest ih =>
    intro fsPaths h
    have hrest : ∀ q ∈ rest, q.target.length ≤ MAX_PATH_LENGTH →
        fsPaths.contains q.target = true :=
      fun q hq => h q (List.mem_cons_of_mem t hq)
    by_cases hlen : t.target.length > MAX_PATH_LENGTH
    · simp only [runSymlinkTasks, createSymlink, if_pos hlen]
      exact ih fsPaths hrest
    · have hex : fsPaths.contains t.target = true :=
        h t (List.mem_cons_self t rest) (by omega)
      simp only [runSymlinkTasks, createSymlink, if_neg hlen, if_pos hex]
      exact ih fsPaths hrest

/-! ## C9 — symlink idempotence and deduplication -/

/-- C9: `createSymlink` leaves the filesystem unchanged whenever an entry
already exists at the target, and only creates a link (at exactly the
requested target) when no entry exists there; the symlink-task `Map` keyed
by target yields tasks with pairwise distinct targets; and a second run of
the symlink phase over the same tasks and the resulting filesystem creates
zero new links and leaves the tree unchanged. -/
theorem symlink_creation_idempotent :
    (∀ fsPaths s t, fsPaths.contains t = true →
        (createSymlink fsPaths s t).1 = fsPaths) ∧
    (∀ fsPaths s t l, (createSymlink fsPaths s t).2 = .ok (some l) →
        fsPaths.contains t = false ∧ l = ⟨s, t⟩ ∧
        (createSymlink fsPaths s t).1 = t :: fsPaths) ∧
    (∀ taskPairs : List (String × String),
        ((tasksOfMap (dedupSymlinkTasks taskPairs)).map (fun t => t.target)).Nodup) ∧
    (∀ fsPaths tasks,
        (runSymlinkTasks (runSymlinkTasks fsPaths tasks).fsPaths tasks).fsPaths
          = (runSymlinkTasks fsPaths tasks).fsPaths ∧
        (runSymlinkTasks (runSymlinkTasks fsPaths tasks).fsPaths tasks).created
          = []) := by
  refine ⟨?_, ?_, ?_, ?_⟩
  · intro fsPaths s t h
    by_cases hlen : t.length > MAX_PATH_LENGTH
    · simp [createSymlink, if_pos hlen]
    · have hmem : t ∈ fsPaths := containsStr_iff.mp h
      simp [createSymlink, if_neg hlen, hmem]
  · intro fsPaths s t l h
    by_cases hlen : t.length > MAX_PATH_LENGTH
    · simp only [createSymlink, if_pos hlen] at h
      cases h
    · by_cases hex : fsPaths.contains t = true
      · simp only [createSymlink, if_neg hlen, if_pos hex] at h
        simp at h
      · simp only [createSymlink, if_neg hlen, if_neg hex] at h
        have hl : l = ⟨s, t⟩ := (Option.some.inj (Except.ok.inj h)).symm
        refine ⟨Bool.eq_false_iff.mpr hex, hl, ?_⟩
        have hmem : t ∉ fsPaths := fun hc => hex (containsStr_iff.mpr hc)
        simp [createSymlink, if_neg hlen, hmem]
  · intro taskPairs
    rw [tasksOfMap_targets]
    exact dedup_foldl_keys_nodup taskPairs [] (by simp)
  · intro fsPaths tasks
    exact runSymlinkTasks_noop tasks (runSymlinkTasks fsPaths tasks).fsPaths
      (fun t ht hle => runSymlinkTasks_target_exists tasks fsPaths t ht hle)

/-- Witness for C9: the existence guard and the creation case applied to
concrete filesystems. -/
theorem symlink_creation_idempotent_witness :
    (createSymlink ["node_modules/pkg"] "src" "node_modules/pkg").1
      = ["node_modules/pkg"] ∧
    (([] : List String).contains "node_modules/pkg" = false ∧
      (⟨"src", "node_modules/pkg"⟩ : SymlinkTask) = ⟨"src", "node_modules/pkg"⟩ ∧
      (createSymlink [] "src" "node_modules/pkg").1 = "node_modules/pkg" :: []) :=
  ⟨symlink_creation_idempotent.1 ["node_modules/pkg"] "src" "node_modules/pkg"
      (by decide),
   symlink_creation_idempotent.2.1 [] "src" "node_modules/pkg"
      ⟨"src", "node_modules/pkg"⟩ rfl⟩
